import Mathlib

/-!
Shallow embedding of the garden repository: the event codec
(`garden-protocol/src/post.rs`, `comment.rs`, `reaction.rs`, `lib.rs`),
the in-memory index projection (`garden-protocol/src/index/mod.rs`),
the server-side sqlite projection (`garden-server/src/database.rs`)
and the account vault (`garden-client/src/accounts.rs`).

Conventions:
- bytes are `Nat`s (all values produced by the code are `< 256`);
  buffers are `List Nat`;
- Rust panics (out-of-bounds slice indexing, failed `assert!`) are
  modelled by `Option`: `none` is a panic, `some` a normal return;
- fallible code returns `Except`;
- Rust `String`s are represented by their UTF-8 byte lists; validity of
  the encoding is tracked by the executable `utf8Valid` predicate, which
  mirrors the check done by `String::from_utf8`;
- external `flowerpot` types (`Hash`, storage traits) and external
  crates (`blake3`, `chacha20poly1305`, `base64`) are not part of the
  repository: they are modelled from the spec where a claim needs them,
  with a doc comment saying so.
-/

deriving instance DecidableEq for Except

/-- `u16::from_le_bytes([a, b])` on bytes `a b < 256`. -/
def leU16 (a b : Nat) : Nat := a + 256 * b

/-- `(n as u16).to_le_bytes()`: little-endian bytes of `n` truncated to 16 bits. -/
def u16le (n : Nat) : List Nat := [n % 256, n / 256 % 256]

/-- A UTF-8 continuation byte `0x80..=0xBF`. -/
def utf8Cont (b : Nat) : Bool := 128 ≤ b && b ≤ 191

/-- UTF-8 validation automaton.  `need` is the number of continuation
bytes still expected for the current code point; `lo`/`hi` bound the
next byte (the first continuation byte of a sequence is constrained to
exclude overlong forms, surrogates and code points past `U+10FFFF`,
exactly as Rust's `String::from_utf8` does). -/
def utf8Auto : List Nat → Nat → Nat → Nat → Bool
  | [], 0, _, _ => true
  | [], _ + 1, _, _ => false
  | b :: rest, 0, _, _ =>
    if b ≤ 127 then utf8Auto rest 0 0 0
    else if 194 ≤ b && b ≤ 223 then utf8Auto rest 1 128 191
    else if b = 224 then utf8Auto rest 2 160 191
    else if (225 ≤ b && b ≤ 236) || (238 ≤ b && b ≤ 239) then utf8Auto rest 2 128 191
    else if b = 237 then utf8Auto rest 2 128 159
    else if b = 240 then utf8Auto rest 3 144 191
    else if 241 ≤ b && b ≤ 243 then utf8Auto rest 3 128 191
    else if b = 244 then utf8Auto rest 3 128 143
    else false
  | b :: rest, need + 1, lo, hi =>
    if lo ≤ b && b ≤ hi then utf8Auto rest need 128 191 else false

/-- UTF-8 validity of a byte sequence, as accepted by Rust's
`String::from_utf8`. -/
def utf8Valid (s : List Nat) : Bool := utf8Auto s 0 0 0

/-- Byte is in the ASCII class `[a-z0-9]` of `TAG_REGEX`. -/
def tagCore (b : Nat) : Bool := (97 ≤ b && b ≤ 122) || (48 ≤ b && b ≤ 57)

/-- Byte is in the ASCII class `[a-z0-9\-]` of `TAG_REGEX`. -/
def tagMid (b : Nat) : Bool := tagCore b || b = 45

/-- First alternative of `TAG_REGEX`: `^[a-z0-9]{1,255}$`. -/
def tagRegexBranch1 (s : List Nat) : Prop :=
  1 ≤ s.length ∧ s.length ≤ 255 ∧ ∀ b ∈ s, tagCore b = true

/-- Second alternative of `TAG_REGEX`:
`^[a-z0-9]{1,255}[a-z0-9\-]{0,255}[a-z0-9]{1,255}$`, as an existential
over the split of the matched string into the three repetition groups. -/
def tagRegexBranch2 (s : List Nat) : Prop :=
  ∃ i < s.length + 1, ∃ k < s.length + 1,
    1 ≤ i ∧ 1 ≤ k ∧ i + k ≤ s.length ∧ i ≤ 255 ∧ k ≤ 255 ∧
    s.length - (i + k) ≤ 255 ∧
    (∀ b ∈ s.take i, tagCore b = true) ∧
    (∀ b ∈ (s.drop i).take (s.length - (i + k)), tagMid b = true) ∧
    (∀ b ∈ s.drop (s.length - k), tagCore b = true)

instance (s : List Nat) : Decidable (tagRegexBranch1 s) := by
  unfold tagRegexBranch1; infer_instance

instance (s : List Nat) : Decidable (tagRegexBranch2 s) := by
  unfold tagRegexBranch2; infer_instance

/-- Whole-string match of the `TAG_REGEX` compiled in `post.rs`
(anchored alternation of the two branches), on the bytes of the
string.  All character classes of the regex are ASCII-only, so
matching the char sequence of a UTF-8 string is equivalent to
matching its byte sequence. -/
def TAG_REGEX_isMatch (s : List Nat) : Prop :=
  tagRegexBranch1 s ∨ tagRegexBranch2 s

instance (s : List Nat) : Decidable (TAG_REGEX_isMatch s) := by
  unfold TAG_REGEX_isMatch; infer_instance

/-- Modelled from the spec: the canonical tag grammar
`^[a-z0-9][a-z0-9-]*[a-z0-9]$` or `^[a-z0-9]$` (the comparison point for
the claim that the compiled regex accepts exactly this language on
strings within the length bound). -/
def canonicalTagMatch : List Nat → Bool
  | [] => false
  | [b] => tagCore b
  | b :: c :: rest =>
    tagCore b && (c :: rest).dropLast.all tagMid && tagCore ((c :: rest).getLastD 0)

/-- `Content::new` (`post.rs`): the argument is the byte form of an
existing Rust `String`; only the length bound is checked. -/
def Content.new (s : List Nat) : Option (List Nat) :=
  if s.length > 65535 then none else some s

/-- `Tag::new` (`post.rs`): length in `1..=255` and `TAG_REGEX` match. -/
def Tag.new (s : List Nat) : Option (List Nat) :=
  if ¬ (1 ≤ s.length ∧ s.length ≤ 255) ∨ ¬ TAG_REGEX_isMatch s then none else some s

/-- Bytes of a Rust `String` holding a valid tag: what the `Tag` type
guarantees by construction. -/
def TagValid (t : List Nat) : Prop :=
  utf8Valid t = true ∧ 1 ≤ t.length ∧ t.length ≤ 255 ∧ TAG_REGEX_isMatch t

instance (t : List Nat) : Decidable (TagValid t) := by
  unfold TagValid; infer_instance

structure PostEvent where
  content : List Nat
  tags : List (List Nat)
deriving DecidableEq, Repr

/-- The values of `PostEvent` constructible in Rust: the content is a
string of at most 65535 bytes, at most 255 tags, each a valid `Tag`. -/
def PostEvent.Valid (p : PostEvent) : Prop :=
  utf8Valid p.content = true ∧ p.content.length ≤ 65535 ∧
    p.tags.length ≤ 255 ∧ ∀ t ∈ p.tags, TagValid t

instance (p : PostEvent) : Decidable (PostEvent.Valid p) := by
  unfold PostEvent.Valid; infer_instance

/-- `PostEvent::new`: only the tag count is checked (the `Content` and
`Tag` arguments are already validated by their own constructors). -/
def PostEvent.new (content : List Nat) (tags : List (List Nat)) : Option PostEvent :=
  if tags.length > 255 then none else some ⟨content, tags⟩

/-- Byte encoding of the tag list: for each tag, `u8 tag_len ‖ tag_bytes`. -/
def postTagsBytes : List (List Nat) → List Nat
  | [] => []
  | t :: ts => t.length % 256 :: t ++ postTagsBytes ts

/-- The buffer built by `PostEvent::to_bytes`:
`u16 content_len (LE) ‖ content ‖ u8 tag_count ‖ tag entries`. -/
def PostEvent.bytes (p : PostEvent) : List Nat :=
  u16le p.content.length ++ p.content ++ p.tags.length % 256 :: postTagsBytes p.tags

/-- `PostEvent::to_bytes`; `none` models a failed `assert!` on the
content length, tag count or a tag length. -/
def PostEvent.toBytes (p : PostEvent) : Option (List Nat) :=
  if p.content.length ≤ 65535 ∧ p.tags.length ≤ 255 ∧ ∀ t ∈ p.tags, t.length ≤ 255
  then some p.bytes else none

inductive PostEventError
  | invalidUnicode
  | sliceTooShort
  | invalidContent
  | invalidTag
deriving DecidableEq, Repr

/-- The tag-reading loop of `PostEvent::from_bytes`: reads `count` tag
entries starting at `off`.  `none` models the out-of-bounds indexing
panics possible there (the code has no bounds checks in the loop;
see its `// TODO: more length checks`). -/
def readTags (event : List Nat) : Nat → Nat → Option (Except PostEventError (List (List Nat)))
  | 0, _ => some (Except.ok [])
  | count + 1, off =>
    match event[off]? with
    | none => none
    | some tagLen =>
      if off + 1 + tagLen ≤ event.length then
        let t := (event.drop (off + 1)).take tagLen
        if ¬ utf8Valid t then some (Except.error .invalidUnicode)
        else
          match Tag.new t with
          | none => some (Except.error .invalidTag)
          | some tag =>
            match readTags event count (off + 1 + tagLen) with
            | none => none
            | some (Except.error e) => some (Except.error e)
            | some (Except.ok ts) => some (Except.ok (tag :: ts))
      else none

/-- `PostEvent::from_bytes`; `none` models an out-of-bounds indexing
panic (the length guard only checks `n < content_len + 2` before the
code reads `event[content_len + 2]`). -/
def PostEvent.fromBytes (event : List Nat) : Option (Except PostEventError PostEvent) :=
  if event.length < 3 then some (Except.error .sliceTooShort)
  else
    let contentLen := leU16 (event.getD 0 0) (event.getD 1 0)
    if event.length < contentLen + 2 then some (Except.error .sliceTooShort)
    else
      match event[contentLen + 2]? with
      | none => none
      | some tagsAmount =>
        let contentBytes := (event.drop 2).take contentLen
        if ¬ utf8Valid contentBytes then some (Except.error .invalidUnicode)
        else
          match Content.new contentBytes with
          | none => some (Except.error .invalidContent)
          | some content =>
            match readTags event tagsAmount (contentLen + 3) with
            | none => none
            | some (Except.error e) => some (Except.error e)
            | some (Except.ok tags) => some (Except.ok ⟨content, tags⟩)

/-- `PostEvent` does not override `Event::size_hint`, so it gets the
default implementation from `lib.rs`, which returns `None`. -/
def PostEvent.sizeHint (_ : PostEvent) : Option Nat := none

/-- Modelled from the spec: `Hash` is an opaque fixed-width byte
identifier of the substrate (`flowerpot` is external to the
repository); the spec calls its width `H`, fixed here to 32 bytes. -/
def Hash.SIZE : Nat := 32

/-- A `Hash` value is its byte string. -/
abbrev Hash : Type := List Nat

/-- `Hash::ZERO`. -/
def Hash.zero : Hash := List.replicate Hash.SIZE 0

inductive CommentEventError
  | invalidUnicode
  | sliceTooShort
  | invalidContent
deriving DecidableEq, Repr

structure CommentEvent where
  refMessageHash : Hash
  content : List Nat
deriving DecidableEq, Repr

/-- The values of `CommentEvent` constructible in Rust. -/
def CommentEvent.Valid (c : CommentEvent) : Prop :=
  c.refMessageHash.length = Hash.SIZE ∧ utf8Valid c.content = true ∧
    c.content.length ≤ 65535

instance (c : CommentEvent) : Decidable (CommentEvent.Valid c) := by
  unfold CommentEvent.Valid; infer_instance

/-- `CommentEvent::to_bytes`: `ref_message_hash ‖ content`. -/
def CommentEvent.toBytes (c : CommentEvent) : List Nat :=
  c.refMessageHash ++ c.content

/-- `CommentEvent::from_bytes`. -/
def CommentEvent.fromBytes (event : List Nat) : Except CommentEventError CommentEvent :=
  if event.length < Hash.SIZE then Except.error .sliceTooShort
  else
    let rest := event.drop Hash.SIZE
    if ¬ utf8Valid rest then Except.error .invalidUnicode
    else
      match Content.new rest with
      | none => Except.error .invalidContent
      | some content => Except.ok ⟨event.take Hash.SIZE, content⟩

/-- `CommentEvent::size_hint`. -/
def CommentEvent.sizeHint (c : CommentEvent) : Option Nat :=
  some (Hash.SIZE + c.content.length)

inductive Reaction
  | thumbUp
  | thumbDown
deriving DecidableEq, Repr

/-- `Reaction::to_name` as bytes (`"thumb_up"` / `"thumb_down"`). -/
def Reaction.toName : Reaction → List Nat
  | .thumbUp => [116, 104, 117, 109, 98, 95, 117, 112]
  | .thumbDown => [116, 104, 117, 109, 98, 95, 100, 111, 119, 110]

/-- `Reaction::from_str` on the bytes of the name. -/
def Reaction.fromName (s : List Nat) : Except Unit Reaction :=
  if s = Reaction.thumbUp.toName then Except.ok .thumbUp
  else if s = Reaction.thumbDown.toName then Except.ok .thumbDown
  else Except.error ()

inductive ReactionEventError
  | invalidUnicode
  | sliceTooShort
  | invalidReactionName
deriving DecidableEq, Repr

structure ReactionEvent where
  refAddress : Hash
  reaction : Reaction
deriving DecidableEq, Repr

/-- The values of `ReactionEvent` constructible in Rust. -/
def ReactionEvent.Valid (r : ReactionEvent) : Prop :=
  r.refAddress.length = Hash.SIZE

instance (r : ReactionEvent) : Decidable (ReactionEvent.Valid r) := by
  unfold ReactionEvent.Valid; infer_instance

/-- `ReactionEvent::to_bytes`: `ref_address ‖ reaction name`. -/
def ReactionEvent.toBytes (r : ReactionEvent) : List Nat :=
  r.refAddress ++ r.reaction.toName

/-- `ReactionEvent::from_bytes`. -/
def ReactionEvent.fromBytes (event : List Nat) : Except ReactionEventError ReactionEvent :=
  if event.length < Hash.SIZE then Except.error .sliceTooShort
  else
    let rest := event.drop Hash.SIZE
    if ¬ utf8Valid rest then Except.error .invalidUnicode
    else
      match Reaction.fromName rest with
      | Except.error _ => Except.error .invalidReactionName
      | Except.ok reaction => Except.ok ⟨event.take Hash.SIZE, reaction⟩

/-- `ReactionEvent::size_hint`. -/
def ReactionEvent.sizeHint (r : ReactionEvent) : Option Nat :=
  some (Hash.SIZE + r.reaction.toName.length)

inductive Events
  | post (e : PostEvent)
  | comment (e : CommentEvent)
  | reaction (e : ReactionEvent)
deriving DecidableEq, Repr

def Events.Valid : Events → Prop
  | .post e => e.Valid
  | .comment e => e.Valid
  | .reaction e => e.Valid

instance (e : Events) : Decidable (Events.Valid e) := by
  cases e <;> (unfold Events.Valid; infer_instance)

inductive EventDecodeError
  | sliceTooShort
  | unknownEvent (id : Nat)
  | post (e : PostEventError)
  | comment (e : CommentEventError)
  | reaction (e : ReactionEventError)
deriving DecidableEq, Repr

/-- The buffer built by `Events::to_bytes`:
`u16 type tag (LE) ‖ variant body` with `V1_POST = 0`,
`V1_COMMENT = 1`, `V1_REACTION = 2`. -/
def Events.bytes : Events → List Nat
  | .post e => 0 :: 0 :: e.bytes
  | .comment e => 1 :: 0 :: e.toBytes
  | .reaction e => 2 :: 0 :: e.toBytes

/-- `Events::to_bytes`; `none` models a failed `assert!` inside
`PostEvent::to_bytes` (the other variants cannot panic). -/
def Events.toBytes : Events → Option (List Nat)
  | .post e =>
    match e.toBytes with
    | none => none
    | some body => some (0 :: 0 :: body)
  | e => some e.bytes

/-- `Events::from_bytes`; `none` models a panic inside
`PostEvent::from_bytes`. -/
def Events.fromBytes (event : List Nat) : Option (Except EventDecodeError Events) :=
  if event.length < 2 then some (Except.error .sliceTooShort)
  else
    let id := leU16 (event.getD 0 0) (event.getD 1 0)
    if id = 0 then
      match PostEvent.fromBytes (event.drop 2) with
      | none => none
      | some (Except.error e) => some (Except.error (.post e))
      | some (Except.ok e) => some (Except.ok (.post e))
    else if id = 1 then
      match CommentEvent.fromBytes (event.drop 2) with
      | Except.error e => some (Except.error (.comment e))
      | Except.ok e => some (Except.ok (.comment e))
    else if id = 2 then
      match ReactionEvent.fromBytes (event.drop 2) with
      | Except.error e => some (Except.error (.reaction e))
      | Except.ok e => some (Except.ok (.reaction e))
    else some (Except.error (.unknownEvent id))

/-- `PostIndex` (`index/post.rs`): a reference into substrate storage. -/
structure PostIndex where
  blockHash : Hash
  messageHash : Hash
deriving DecidableEq, Repr

/-- `CommentIndex` (`index/comment.rs`). -/
structure CommentIndex where
  blockHash : Hash
  messageHash : Hash
  refMessageHash : Hash
deriving DecidableEq, Repr

/-- A substrate message: hash plus raw event bytes (`flowerpot`
`Message` surface used by `Index::update`). -/
structure Message where
  hash : Hash
  data : List Nat
deriving DecidableEq, Repr

/-- A substrate block: hash plus inline messages. -/
structure Block where
  hash : Hash
  inlineMessages : List Message
deriving DecidableEq, Repr

/-- The read-only substrate `Storage` surface consumed by
`Index::update`, modelled as an error-free deterministic storage
(storage I/O errors are orthogonal to the projection logic under
study). -/
structure Storage where
  rootBlock : Option Hash
  hasBlock : Hash → Bool
  nextBlock : Hash → Option Hash
  readBlock : Hash → Option Block

/-- The in-memory `Index` (`index/mod.rs`). -/
structure Index where
  rootBlock : Hash
  lastBlock : Hash
  posts : List PostIndex
  comments : List CommentIndex
deriving DecidableEq, Repr

/-- The body of the per-block message loop of `Index::update`: decode
each inline message, append a `PostIndex`/`CommentIndex` for
`Post`/`Comment` events, skip other variants.  A decode failure stops
the loop (the `?` operator); the partially updated index and the error
are returned.  `none` models a decoder panic. -/
def processMessages (block : Block) :
    List Message → Index → Option (Index × Option EventDecodeError)
  | [], idx => some (idx, none)
  | m :: rest, idx =>
    match Events.fromBytes m.data with
    | none => none
    | some (Except.error e) => some (idx, some e)
    | some (Except.ok (.post _)) =>
      processMessages block rest
        { idx with posts := idx.posts ++ [⟨block.hash, m.hash⟩] }
    | some (Except.ok (.comment c)) =>
      processMessages block rest
        { idx with comments := idx.comments ++ [⟨block.hash, m.hash, c.refMessageHash⟩] }
    | some (Except.ok (.reaction _)) => processMessages block rest idx

/-- The `while let` loop of `Index::update`, with explicit fuel (the
Rust loop runs until `next_block` returns `None` or a block body is
missing; every property below is proved for every fuel value). -/
def Index.updateLoop (s : Storage) : Nat → Index → Option (Index × Except EventDecodeError Unit)
  | 0, idx => some (idx, Except.ok ())
  | fuel + 1, idx =>
    match s.nextBlock idx.lastBlock with
    | none => some (idx, Except.ok ())
    | some h =>
      match s.readBlock h with
      | none => some (idx, Except.ok ())
      | some block =>
        match processMessages block block.inlineMessages idx with
        | none => none
        | some (idx', some e) => some (idx', Except.error e)
        | some (idx', none) => Index.updateLoop s fuel { idx' with lastBlock := h }

/-- `Index::update`: empty storage is a no-op; on root-block change or
a missing `last_block` the posts/comments lists are cleared and
`last_block` reset to `Hash::ZERO`; then `root_block` is stored and the
block loop runs.  The returned pair is the final state of `&mut self`
and the `Result`; `none` models a decoder panic. -/
def Index.update (s : Storage) (fuel : Nat) (idx : Index) :
    Option (Index × Except EventDecodeError Unit) :=
  match s.rootBlock with
  | none => some (idx, Except.ok ())
  | some root =>
    let idx1 :=
      if idx.rootBlock ≠ root ∨ s.hasBlock idx.lastBlock = false
      then { idx with lastBlock := Hash.zero, posts := [], comments := [] }
      else idx
    Index.updateLoop s fuel { idx1 with rootBlock := root }

/-- A message carrying bytes that do not decode as an `Events` value
(the empty slice: `SliceTooShort`). -/
def cxMessage : Message := ⟨[9], []⟩

/-- A block holding only `cxMessage`. -/
def cxBlock : Block := ⟨[5], [cxMessage]⟩

/-- A storage whose single unindexed block contains a message that does
not decode. -/
def cxStorage : Storage :=
  { rootBlock := some [1]
  , hasBlock := fun _ => true
  , nextBlock := fun h => if h = Hash.zero then some [5] else none
  , readBlock := fun h => if h = [5] then some cxBlock else none }

/-- An index already tracking `cxStorage`'s root block, nothing
projected yet. -/
def cxIndex : Index := ⟨[1], Hash.zero, [], []⟩

/-- A storage whose root block `[1]` differs from `rwIndex`'s recorded
root block (forces the re-org reset path). -/
def rwStorage : Storage :=
  { rootBlock := some [1]
  , hasBlock := fun _ => true
  , nextBlock := fun _ => none
  , readBlock := fun _ => none }

/-- An index with entries projected under a different root block. -/
def rwIndex : Index := ⟨[2], [3], [⟨[4], [5]⟩], [⟨[4], [6], [7]⟩]⟩

/-- An index that already tracks `rwStorage`'s root block, with one
projected post (exercises the no-reset path). -/
def rwIndex2 : Index := ⟨[1], Hash.zero, [⟨[4], [5]⟩], []⟩

/-- A substrate transaction as consumed by `Database::sync`
(`garden-server/src/database.rs`): hash, raw event bytes, and the
result of the external signature verification (`sigOk`/`author`). -/
structure Transaction where
  hash : Hash
  data : List Nat
  author : Nat
  sigOk : Bool
deriving DecidableEq, Repr

/-- `BlockContent`: `sync` only projects `Transactions` blocks. -/
inductive SBlockContent
  | transactions (txs : List Transaction)
  | other
deriving DecidableEq, Repr

/-- A substrate block as consumed by `Database::sync`. -/
structure SBlock where
  timestamp : Nat
  content : SBlockContent
deriving DecidableEq, Repr

/-- The substrate storage surface consumed by `Database::sync`, modelled
error-free (`history()` is the linear block-hash iterator). -/
structure ServerStorage where
  history : List Hash
  readBlock : Hash → Option SBlock

/-- A row of the `v1_posts` table:
`(transaction PK, content, timestamp, author)`. -/
structure PostRow where
  transaction : Hash
  content : List Nat
  timestamp : Nat
  author : Nat
deriving DecidableEq, Repr

/-- A row of the `v1_comments` table. -/
structure CommentRow where
  ref : Hash
  transaction : Hash
  content : List Nat
  timestamp : Nat
  author : Nat
deriving DecidableEq, Repr

/-- A row of the `v1_reactions` table. -/
structure ReactionRow where
  ref : Hash
  transaction : Hash
  name : List Nat
  timestamp : Nat
  author : Nat
deriving DecidableEq, Repr

/-- The sqlite index state: the five tables created by
`Database::new`. -/
structure Db where
  handledBlocks : List Hash
  posts : List PostRow
  postTags : List (Hash × List Nat)
  comments : List CommentRow
  reactions : List ReactionRow
deriving DecidableEq, Repr

/-- `DatabaseError` of `garden-server/src/database.rs`.  `indexErr`
stands for a `rusqlite::Error` (in this model: a violated UNIQUE/PK
constraint on INSERT). -/
inductive DatabaseError
  | indexErr
  | events (e : EventDecodeError)
  | verifySignature
deriving DecidableEq, Repr

/-- `INSERT INTO v1_handled_blocks`: the column is UNIQUE. -/
def Db.insertHandled (db : Db) (h : Hash) : Except DatabaseError Db :=
  if h ∈ db.handledBlocks then Except.error .indexErr
  else Except.ok { db with handledBlocks := db.handledBlocks ++ [h] }

/-- `INSERT INTO v1_posts`: `transaction` is the primary key. -/
def Db.insertPost (db : Db) (r : PostRow) : Except DatabaseError Db :=
  if ∃ q ∈ db.posts, q.transaction = r.transaction then Except.error .indexErr
  else Except.ok { db with posts := db.posts ++ [r] }

/-- `INSERT INTO v1_post_tags`: `(post, tag)` is UNIQUE. -/
def Db.insertPostTag (db : Db) (p : Hash × List Nat) : Except DatabaseError Db :=
  if p ∈ db.postTags then Except.error .indexErr
  else Except.ok { db with postTags := db.postTags ++ [p] }

/-- `INSERT INTO v1_comments`: `transaction` is the primary key. -/
def Db.insertComment (db : Db) (r : CommentRow) : Except DatabaseError Db :=
  if ∃ q ∈ db.comments, q.transaction = r.transaction then Except.error .indexErr
  else Except.ok { db with comments := db.comments ++ [r] }

/-- `INSERT INTO v1_reactions`: `transaction` is the primary key. -/
def Db.insertReaction (db : Db) (r : ReactionRow) : Except DatabaseError Db :=
  if ∃ q ∈ db.reactions, q.transaction = r.transaction then Except.error .indexErr
  else Except.ok { db with reactions := db.reactions ++ [r] }

/-- The tag insertion loop of the `Events::Post` branch of `sync`
(each `?` on a failed INSERT aborts). -/
def Db.insertTags (db : Db) (txHash : Hash) : List (List Nat) → Except DatabaseError Db
  | [] => Except.ok db
  | t :: ts =>
    match db.insertPostTag (txHash, t) with
    | Except.error e => Except.error e
    | Except.ok db' => Db.insertTags db' txHash ts

/-- The per-event `match` of `sync`: `Post` inserts the payload row and
one tag row per tag; `Comment`/`Reaction` insert their rows. -/
def Db.applyEvent (db : Db) (txHash : Hash) (author ts : Nat) :
    Events → Except DatabaseError Db
  | .post p =>
    match db.insertPost ⟨txHash, p.content, ts, author⟩ with
    | Except.error e => Except.error e
    | Except.ok db' => Db.insertTags db' txHash p.tags
  | .comment c => db.insertComment ⟨c.refMessageHash, txHash, c.content, ts, author⟩
  | .reaction r => db.insertReaction ⟨r.refAddress, txHash, r.reaction.toName, ts, author⟩

/-- The transaction loop of `sync`: verify the signature, decode the
event bytes, apply.  `none` models a decoder panic. -/
def Db.processTxs (db : Db) (ts : Nat) :
    List Transaction → Option (Except DatabaseError Db)
  | [] => some (Except.ok db)
  | tx :: rest =>
    if tx.sigOk = false then some (Except.error .verifySignature)
    else
      match Events.fromBytes tx.data with
      | none => none
      | some (Except.error e) => some (Except.error (.events e))
      | some (Except.ok ev) =>
        match db.applyEvent tx.hash tx.author ts ev with
        | Except.error e => some (Except.error e)
        | Except.ok db' => Db.processTxs db' ts rest

/-- One sqlite transaction of `sync` for one block: record the block in
`v1_handled_blocks`, then project its transactions. -/
def Db.processBlock (db : Db) (bh : Hash) (b : SBlock) :
    Option (Except DatabaseError Db) :=
  match db.insertHandled bh with
  | Except.error e => some (Except.error e)
  | Except.ok db1 =>
    match b.content with
    | .other => some (Except.ok db1)
    | .transactions txs => db1.processTxs b.timestamp txs

/-- `Database::sync` over the `history()` iterator: skip handled or
unreadable blocks; otherwise run the block's sqlite transaction, which
is rolled back (state discarded) on error, the error aborting `sync`.
`none` models a decoder panic. -/
def Db.sync (st : ServerStorage) : Db → List Hash → Option (Except DatabaseError Db)
  | db, [] => some (Except.ok db)
  | db, bh :: rest =>
    if bh ∈ db.handledBlocks then Db.sync st db rest
    else
      match st.readBlock bh with
      | none => Db.sync st db rest
      | some b =>
        match db.processBlock bh b with
        | none => none
        | some (Except.error e) => some (Except.error e)
        | some (Except.ok db') => Db.sync st db' rest

/-- The `v1_posts` primary-key invariant: no two rows share a
`transaction` hash. -/
def PostsKeyed (db : Db) : Prop := (db.posts.map PostRow.transaction).Nodup

/-- A transaction carrying an encoded post event. -/
def wTx : Transaction := ⟨[8], Events.bytes (.post ⟨[104, 105], [[97]]⟩), 5, true⟩

/-- A block holding only `wTx`. -/
def wBlock : SBlock := ⟨100, .transactions [wTx]⟩

/-- A server storage whose history is the single block `wBlock`. -/
def wServerStorage : ServerStorage := ⟨[[2]], fun h => if h = [2] then some wBlock else none⟩

/-- The empty sqlite index state. -/
def emptyDb : Db := ⟨[], [], [], [], []⟩

/-- Modelled from the spec: `blake3::derive_key` with the fixed context
string (the KDF itself is an external crate): an executable stand-in
that mixes the password bytes into a 32-byte key. -/
def deriveKey (password : List Nat) : List Nat :=
  (List.range 32).map fun i =>
    password.foldl (fun acc b => (acc * 31 + b + 7) % 256) i

/-- `Account::NONCE`, the fixed 12-byte nonce of `accounts.rs`. -/
def Account.NONCE : List Nat := [73, 144, 0, 139, 49, 38, 122, 43, 159, 112, 212, 48]

/-- Modelled from the spec: ChaCha20-Poly1305 authenticated encryption
(an external crate), as an ideal authenticated cipher: the ciphertext
determines plaintext, key and nonce, and decryption succeeds exactly
when key and nonce match. -/
def aeadEncrypt (key nonce plain : List Nat) : List Nat := plain ++ key ++ nonce

/-- Modelled from the spec: decryption half of the ideal authenticated
cipher; `none` is a failed MAC verification. -/
def aeadDecrypt (key nonce cipher : List Nat) : Option (List Nat) :=
  let k := key.length + nonce.length
  if cipher.length < k then none
  else if cipher.drop (cipher.length - k) = key ++ nonce
  then some (cipher.take (cipher.length - k))
  else none

/-- `SigningKey::SIZE` of the external signature scheme. -/
def SigningKey.SIZE : Nat := 32

/-- The `Account` vault record (`accounts.rs`).  `signingKey` holds the
encrypted signing key (base64, an external bijective transport coding,
is modelled as the identity). -/
structure Account where
  name : List Nat
  createdAt : Nat
  signingKey : List Nat
deriving DecidableEq, Repr

/-- `Account::new`: derive the key from the password, encrypt the
signing key bytes under the fixed nonce (`created_at := now()` is taken
as an argument since the clock is external). -/
def Account.new (name : List Nat) (signingKey : List Nat) (password : List Nat)
    (now : Nat) : Account :=
  { name := name
  , createdAt := now
  , signingKey := aeadEncrypt (deriveKey password) Account.NONCE signingKey }

/-- `Account::signing_key(password)`: derive the key, decrypt, check the
length, reconstruct the signing key. -/
def Account.decryptSigningKey (acc : Account) (password : List Nat) :
    Except String (List Nat) :=
  match aeadDecrypt (deriveKey password) Account.NONCE acc.signingKey with
  | none => Except.error "failed to decrypt account signing key"
  | some sk =>
    if sk.length ≠ SigningKey.SIZE then Except.error "invalid signing key size"
    else Except.ok sk

theorem utf8Valid_cons_ascii (b : Nat) (rest : List Nat) (h : b ≤ 127) :
    utf8Valid (b :: rest) = utf8Valid rest := by
  unfold utf8Valid
  conv_lhs => rw [utf8Auto.eq_def]
  exact if_pos h

/-- ASCII bytes are always valid UTF-8. -/
theorem utf8Valid_of_ascii : ∀ s : List Nat, (∀ b ∈ s, b ≤ 127) → utf8Valid s = true := by
  intro s
  induction s with
  | nil => intro _; rfl
  | cons b rest ih =>
    intro h
    rw [utf8Valid_cons_ascii b rest (h b (List.mem_cons_self ..))]
    exact ih fun x hx => h x (List.mem_cons_of_mem _ hx)

theorem tagMid_of_tagCore {b : Nat} (h : tagCore b = true) : tagMid b = true := by
  simp [tagMid, h]

theorem tagCore_le (b : Nat) (h : tagCore b = true) : b ≤ 127 := by
  simp only [tagCore, Bool.or_eq_true, Bool.and_eq_true, decide_eq_true_eq] at h
  omega

theorem tagMid_le (b : Nat) (h : tagMid b = true) : b ≤ 127 := by
  simp only [tagMid, Bool.or_eq_true, decide_eq_true_eq] at h
  rcases h with h | h
  · exact tagCore_le b h
  · omega

theorem Tag.new_of_valid {t : List Nat} (h : TagValid t) : Tag.new t = some t := by
  unfold Tag.new
  rw [if_neg]
  push_neg
  exact ⟨⟨h.2.1, h.2.2.1⟩, h.2.2.2⟩

/-- The tag loop of `PostEvent::from_bytes` reads back exactly the tag
entries written by `PostEvent::to_bytes`, wherever they sit in the
buffer and whatever follows them. -/
theorem readTags_bytes (tags : List (List Nat)) :
    ∀ pre suffix : List Nat, (∀ t ∈ tags, TagValid t) →
      readTags (pre ++ (postTagsBytes tags ++ suffix)) tags.length pre.length
        = some (Except.ok tags) := by
  induction tags with
  | nil => intro pre suffix _; rfl
  | cons t ts ih =>
    intro pre suffix hv
    have ht : TagValid t := hv t (List.mem_cons_self ..)
    have hlen : t.length % 256 = t.length := Nat.mod_eq_of_lt (by have := ht.2.2.1; omega)
    have hsplit : pre ++ (postTagsBytes (t :: ts) ++ suffix)
        = (pre ++ t.length :: t) ++ (postTagsBytes ts ++ suffix) := by
      simp [postTagsBytes, hlen, List.append_assoc]
    have hget : (pre ++ (postTagsBytes (t :: ts) ++ suffix))[pre.length]?
        = some t.length := by
      rw [show pre ++ (postTagsBytes (t :: ts) ++ suffix)
          = pre ++ (t.length :: (t ++ (postTagsBytes ts ++ suffix))) by
        simp [postTagsBytes, hlen, List.append_assoc]]
      rw [List.getElem?_append_right (Nat.le_refl _)]
      simp
    have hslice : (((pre ++ (postTagsBytes (t :: ts) ++ suffix)).drop (pre.length + 1)).take
        t.length) = t := by
      rw [show pre ++ (postTagsBytes (t :: ts) ++ suffix)
          = (pre ++ [t.length]) ++ (t ++ (postTagsBytes ts ++ suffix)) by
        simp [postTagsBytes, hlen, List.append_assoc]]
      rw [show pre.length + 1 = (pre ++ [t.length]).length by simp]
      rw [List.drop_left]
      exact List.take_left t _
    have hbound : pre.length + 1 + t.length
        ≤ (pre ++ (postTagsBytes (t :: ts) ++ suffix)).length := by
      simp only [postTagsBytes, List.length_append, List.length_cons]
      omega
    have hoff : pre.length + 1 + t.length = (pre ++ t.length :: t).length := by
      simp only [List.length_append, List.length_cons]
      omega
    rw [show (t :: ts).length = ts.length + 1 from rfl]
    rw [readTags]
    simp only [hget]
    rw [if_pos hbound]
    simp only [hslice]
    rw [if_neg (by simp [ht.1])]
    simp only [Tag.new_of_valid ht]
    rw [hoff, hsplit]
    simp only [ih (pre ++ t.length :: t) suffix
      fun x hx => hv x (List.mem_cons_of_mem _ hx)]

/-- `PostEvent::from_bytes` decodes the buffer built by
`PostEvent::to_bytes` back to the same event, ignoring any bytes
appended after the encoding. -/
theorem PostEvent.fromBytes_bytes_append (p : PostEvent) (hv : p.Valid) (s : List Nat) :
    PostEvent.fromBytes (PostEvent.bytes p ++ s) = some (Except.ok p) := by
  obtain ⟨hutf, hclen, htlen, htags⟩ := hv
  have hcnt : p.tags.length % 256 = p.tags.length := Nat.mod_eq_of_lt (by omega)
  have hlen : (PostEvent.bytes p ++ s).length
      = p.content.length + 3 + (postTagsBytes p.tags).length + s.length := by
    simp [PostEvent.bytes, u16le, List.length_append]
    omega
  have h3 : ¬ (PostEvent.bytes p ++ s).length < 3 := by omega
  have hg0 : (PostEvent.bytes p ++ s).getD 0 0 = p.content.length % 256 := by
    simp [PostEvent.bytes, u16le]
  have hg1 : (PostEvent.bytes p ++ s).getD 1 0 = p.content.length / 256 % 256 := by
    simp [PostEvent.bytes, u16le]
  have hle : leU16 (p.content.length % 256) (p.content.length / 256 % 256)
      = p.content.length := by
    simp [leU16]
    omega
  have h2 : ¬ (PostEvent.bytes p ++ s).length < p.content.length + 2 := by omega
  have hgetcnt : (PostEvent.bytes p ++ s)[p.content.length + 2]?
      = some (p.tags.length % 256) := by
    rw [show PostEvent.bytes p ++ s
        = (u16le p.content.length ++ p.content)
          ++ (p.tags.length % 256 :: (postTagsBytes p.tags ++ s)) by
      simp [PostEvent.bytes, List.append_assoc]]
    rw [List.getElem?_append_right
      (by simp only [u16le, List.length_append, List.length_cons, List.length_nil]; omega)]
    simp [u16le]
  have hcontent : (((PostEvent.bytes p ++ s).drop 2).take p.content.length)
      = p.content := by
    rw [show PostEvent.bytes p ++ s
        = u16le p.content.length
          ++ (p.content ++ (p.tags.length % 256 :: (postTagsBytes p.tags ++ s))) by
      simp [PostEvent.bytes, List.append_assoc]]
    rw [show (2 : Nat) = (u16le p.content.length).length by simp [u16le]]
    rw [List.drop_left]
    exact List.take_left p.content _
  have hread : readTags (PostEvent.bytes p ++ s) p.tags.length (p.content.length + 3)
      = some (Except.ok p.tags) := by
    have hpre : p.content.length + 3
        = (u16le p.content.length ++ (p.content ++ [p.tags.length % 256])).length := by
      simp only [u16le, List.length_append, List.length_cons, List.length_nil]
      omega
    rw [show PostEvent.bytes p ++ s
        = (u16le p.content.length ++ (p.content ++ [p.tags.length % 256]))
          ++ (postTagsBytes p.tags ++ s) by
      simp [PostEvent.bytes, List.append_assoc]]
    rw [hpre]
    exact readTags_bytes p.tags _ s htags
  have hcn : Content.new p.content = some p.content := by
    unfold Content.new
    rw [if_neg (by omega)]
  unfold PostEvent.fromBytes
  rw [if_neg h3]
  simp only [hg0, hg1, hle]
  rw [if_neg h2]
  simp only [hgetcnt, hcnt, hcontent]
  rw [if_neg (by simp [hutf])]
  simp only [hcn, hread]

/-- `PostEvent::to_bytes` never hits its assertions on a constructible
event. -/
theorem PostEvent.toBytes_of_valid (p : PostEvent) (hv : p.Valid) :
    PostEvent.toBytes p = some p.bytes := by
  obtain ⟨_, hclen, htlen, htags⟩ := hv
  unfold PostEvent.toBytes
  rw [if_pos ⟨hclen, htlen, fun t ht => (htags t ht).2.2.1⟩]

theorem commentEvent_roundtrip (c : CommentEvent) (hv : c.Valid) :
    CommentEvent.fromBytes c.toBytes = Except.ok c := by
  obtain ⟨href, hutf, hlen⟩ := hv
  have hdrop : (c.refMessageHash ++ c.content).drop Hash.SIZE = c.content := by
    rw [← href]; exact List.drop_left ..
  have htake : (c.refMessageHash ++ c.content).take Hash.SIZE = c.refMessageHash := by
    rw [← href]; exact List.take_left ..
  have hcn : Content.new c.content = some c.content := by
    unfold Content.new; rw [if_neg (by omega)]
  unfold CommentEvent.toBytes CommentEvent.fromBytes
  rw [if_neg (by simp only [List.length_append]; omega)]
  simp only [hdrop, htake]
  rw [if_neg (by simp [hutf])]
  simp only [hcn]

theorem Reaction.fromName_toName (r : Reaction) :
    Reaction.fromName r.toName = Except.ok r := by
  cases r <;> rfl

theorem Reaction.toName_ascii (r : Reaction) : utf8Valid r.toName = true := by
  cases r <;> decide

theorem reactionEvent_roundtrip (r : ReactionEvent) (hv : r.Valid) :
    ReactionEvent.fromBytes r.toBytes = Except.ok r := by
  have href : r.refAddress.length = Hash.SIZE := hv
  have hdrop : (r.refAddress ++ r.reaction.toName).drop Hash.SIZE = r.reaction.toName := by
    rw [← href]; exact List.drop_left ..
  have htake : (r.refAddress ++ r.reaction.toName).take Hash.SIZE = r.refAddress := by
    rw [← href]; exact List.take_left ..
  unfold ReactionEvent.toBytes ReactionEvent.fromBytes
  rw [if_neg (by simp only [List.length_append]; omega)]
  simp only [hdrop, htake]
  rw [if_neg (by simp [Reaction.toName_ascii])]
  simp only [Reaction.fromName_toName]

/-- `Events::from_bytes` decodes the envelope built by
`Events::to_bytes` back to the same event. -/
theorem Events.fromBytes_bytes (e : Events) (hv : e.Valid) :
    Events.fromBytes e.bytes = some (Except.ok e) := by
  cases e with
  | post p =>
    have h := PostEvent.fromBytes_bytes_append p hv []
    rw [List.append_nil] at h
    simp [Events.fromBytes, Events.bytes, leU16, h]
  | comment c =>
    have h := commentEvent_roundtrip c hv
    simp [Events.fromBytes, Events.bytes, leU16, h]
  | reaction r =>
    have h := reactionEvent_roundtrip r hv
    simp [Events.fromBytes, Events.bytes, leU16, h]

theorem headD_mem {s : List Nat} (h : s ≠ []) : s.headD 0 ∈ s := by
  match s with
  | a :: t => exact List.mem_cons_self ..

theorem getLastD_mem {s : List Nat} (h : s ≠ []) : s.getLastD 0 ∈ s := by
  match s with
  | a :: t =>
    rw [List.getLastD_cons, ← List.getLast_eq_getLastD a t (List.cons_ne_nil a t)]
    exact List.getLast_mem _

theorem getLastD_append_of_ne_nil (z : List Nat) (hz : z ≠ []) :
    ∀ (xs : List Nat) (d : Nat), (xs ++ z).getLastD d = z.getLastD 0 := by
  intro xs
  induction xs with
  | nil =>
    intro d
    match z with
    | c :: t => rw [List.nil_append, List.getLastD_cons, List.getLastD_cons]
  | cons a xs ih =>
    intro d
    rw [List.cons_append, List.getLastD_cons, ih a]

theorem drop_length_sub_one : ∀ s : List Nat, s ≠ [] → s.drop (s.length - 1) = [s.getLastD 0]
  | [a], _ => rfl
  | a :: b :: t, _ => by
    have ih := drop_length_sub_one (b :: t) (List.cons_ne_nil b t)
    simp only [List.length_cons] at ih ⊢
    rw [show t.length + 1 + 1 - 1 = t.length + 1 by omega, List.drop_succ_cons]
    rw [show t.length + 1 - 1 = t.length by omega] at ih
    rw [ih]
    simp only [List.getLastD_cons]

/-- `canonicalTagMatch` in terms of membership, head and last. -/
theorem canonicalTagMatch_iff (s : List Nat) :
    canonicalTagMatch s = true ↔
      s ≠ [] ∧ (∀ b ∈ s, tagMid b = true) ∧
        tagCore (s.headD 0) = true ∧ tagCore (s.getLastD 0) = true := by
  match s with
  | [] => simp [canonicalTagMatch]
  | [b] =>
    constructor
    · intro h
      have hb : tagCore b = true := h
      exact ⟨List.cons_ne_nil b [],
        fun x hx => by rw [List.mem_singleton.mp hx]; exact tagMid_of_tagCore hb, hb, hb⟩
    · intro ⟨_, _, hh, _⟩
      exact hh
  | b :: c :: rest =>
    have hne : c :: rest ≠ [] := List.cons_ne_nil c rest
    have hdec := List.dropLast_append_getLast hne
    have hLD : (b :: c :: rest).getLastD 0 = (c :: rest).getLast hne := by
      rw [List.getLast_eq_getLastD]
      simp only [List.getLastD_cons]
    have hLD2 : (c :: rest).getLastD 0 = (c :: rest).getLast hne := by
      rw [List.getLast_eq_getLastD]
      simp only [List.getLastD_cons]
    have hunf : canonicalTagMatch (b :: c :: rest)
        = (tagCore b && (c :: rest).dropLast.all tagMid
            && tagCore ((c :: rest).getLastD 0)) := rfl
    constructor
    · intro h
      rw [hunf, Bool.and_eq_true, Bool.and_eq_true, List.all_eq_true] at h
      obtain ⟨⟨hb, hmidl⟩, hlast⟩ := h
      rw [hLD2] at hlast
      refine ⟨List.cons_ne_nil b (c :: rest), ?_, hb, by rw [hLD]; exact hlast⟩
      intro x hx
      rcases List.mem_cons.mp hx with rfl | hx'
      · exact tagMid_of_tagCore hb
      · rw [← hdec] at hx'
        rcases List.mem_append.mp hx' with hx'' | hx''
        · exact hmidl x hx''
        · rw [List.mem_singleton.mp hx'']
          exact tagMid_of_tagCore hlast
    · intro ⟨_, hall, hb, hlast⟩
      rw [hunf, Bool.and_eq_true, Bool.and_eq_true, List.all_eq_true]
      rw [hLD] at hlast
      refine ⟨⟨hb, ?_⟩, by rw [hLD2]; exact hlast⟩
      intro x hx
      exact hall x (List.mem_cons_of_mem b
        (by rw [← hdec]; exact List.mem_append_left _ hx))

theorem branch1_canonical (s : List Nat) (h : tagRegexBranch1 s) :
    canonicalTagMatch s = true := by
  obtain ⟨h1, _, hall⟩ := h
  have hne : s ≠ [] := List.length_pos.mp (by omega)
  rw [canonicalTagMatch_iff]
  exact ⟨hne, fun b hb => tagMid_of_tagCore (hall b hb),
    hall _ (headD_mem hne), hall _ (getLastD_mem hne)⟩

theorem branch2_canonical (s : List Nat) (h : tagRegexBranch2 s) :
    canonicalTagMatch s = true := by
  obtain ⟨i, _, k, _, hi1, hk1, hik, _, _, _, hx, hy, hz⟩ := h
  have hne : s ≠ [] := List.length_pos.mp (by omega)
  have hdropz : s.drop (s.length - k) = (s.drop i).drop (s.length - (i + k)) := by
    rw [List.drop_drop]
    congr 1
    omega
  have hsplit : s = s.take i ++ ((s.drop i).take (s.length - (i + k)) ++ s.drop (s.length - k)) := by
    rw [hdropz, List.take_append_drop, List.take_append_drop]
  have hzlen : s.drop (s.length - k) ≠ [] := by
    have : (s.drop (s.length - k)).length = k := by
      rw [List.length_drop]
      omega
    intro hcon
    rw [hcon] at this
    simp at this
    omega
  rw [canonicalTagMatch_iff]
  refine ⟨hne, ?_, ?_, ?_⟩
  · intro b hb
    conv at hb => rw [hsplit]
    rcases List.mem_append.mp hb with hb' | hb'
    · exact tagMid_of_tagCore (hx b hb')
    · rcases List.mem_append.mp hb' with hb'' | hb''
      · exact hy b hb''
      · exact tagMid_of_tagCore (hz b hb'')
  · match s, i, hi1 with
    | a :: t, j + 1, _ =>
      exact hx a (by
        rw [show List.take (j + 1) (a :: t) = a :: List.take j t from rfl]
        exact List.mem_cons_self ..)
  · have hlast : s.getLastD 0 = (s.drop (s.length - k)).getLastD 0 := by
      conv_lhs => rw [hsplit]
      rw [← List.append_assoc]
      exact getLastD_append_of_ne_nil _ hzlen _ 0
    rw [hlast]
    exact hz _ (getLastD_mem hzlen)

theorem canonical_branches (s : List Nat) (hc : canonicalTagMatch s = true)
    (hlb : 1 ≤ s.length) (hub : s.length ≤ 255) : TAG_REGEX_isMatch s := by
  rw [canonicalTagMatch_iff] at hc
  obtain ⟨hne, hmid, hhead, hlast⟩ := hc
  by_cases hall : ∀ b ∈ s, tagCore b = true
  · exact Or.inl ⟨hlb, hub, hall⟩
  · right
    have h2 : 2 ≤ s.length := by
      rcases Nat.lt_or_ge s.length 2 with hlt | hge
      · exfalso
        have h1 : s.length = 1 := by omega
        apply hall
        match s, h1 with
        | [a], _ =>
          intro b hb
          rw [List.mem_singleton.mp hb]
          exact hhead
      · exact hge
    refine ⟨1, by omega, 1, by omega, le_refl 1, le_refl 1, by omega, by omega, by omega,
      by omega, ?_, ?_, ?_⟩
    · match s with
      | a :: t =>
        intro b hb
        rw [show List.take 1 (a :: t) = [a] from rfl] at hb
        rw [List.mem_singleton.mp hb]
        exact hhead
    · intro b hb
      exact hmid b (List.drop_subset 1 s (List.take_subset _ _ hb))
    · rw [drop_length_sub_one s hne]
      intro b hb
      rw [List.mem_singleton.mp hb]
      exact hlast

/-- C7: `Tag::new(s)` returns `Some` exactly when the byte length of
`s` is between 1 and 255 and `s` is in the canonical tag language
`^[a-z0-9][a-z0-9-]*[a-z0-9]$ | ^[a-z0-9]$`: within the length bound,
the regex compiled in `post.rs` accepts exactly the canonical
language. -/
theorem tag_new_iff_canonical (s : List Nat) :
    (Tag.new s).isSome = true ↔
      1 ≤ s.length ∧ s.length ≤ 255 ∧ canonicalTagMatch s = true := by
  unfold Tag.new
  constructor
  · intro h
    by_cases hc : ¬ (1 ≤ s.length ∧ s.length ≤ 255) ∨ ¬ TAG_REGEX_isMatch s
    · rw [if_pos hc] at h
      simp at h
    · push_neg at hc
      obtain ⟨⟨h1, h2⟩, hm⟩ := hc
      refine ⟨h1, h2, ?_⟩
      rcases hm with hb1 | hb2
      · exact branch1_canonical s hb1
      · exact branch2_canonical s hb2
  · intro ⟨h1, h2, hc⟩
    rw [if_neg]
    · rfl
    · push_neg
      exact ⟨⟨h1, h2⟩, canonical_branches s hc h1 h2⟩

theorem tag_new_iff_canonical_witness :
    (Tag.new [97, 45, 98]).isSome = true ∧ (Tag.new [45, 97]).isSome = false := by
  constructor
  · exact (tag_new_iff_canonical [97, 45, 98]).mpr (by decide)
  · have h := tag_new_iff_canonical [45, 97]
    rw [show canonicalTagMatch [45, 97] = false from by decide] at h
    simp at h
    rw [h]
    exact rfl

/-- C1: for every constructible event of each variant the encoding
succeeds and decoding it returns the same value, both for the bare
variant codecs and for the `Events` envelope. -/
theorem events_roundtrip :
    (∀ p : PostEvent, p.Valid →
        PostEvent.toBytes p = some p.bytes
          ∧ PostEvent.fromBytes p.bytes = some (Except.ok p))
    ∧ (∀ c : CommentEvent, c.Valid →
        CommentEvent.fromBytes c.toBytes = Except.ok c)
    ∧ (∀ r : ReactionEvent, r.Valid →
        ReactionEvent.fromBytes r.toBytes = Except.ok r)
    ∧ (∀ e : Events, e.Valid →
        Events.toBytes e = some e.bytes
          ∧ Events.fromBytes e.bytes = some (Except.ok e)) := by
  refine ⟨fun p hv => ⟨PostEvent.toBytes_of_valid p hv, ?_⟩,
    commentEvent_roundtrip, reactionEvent_roundtrip,
    fun e hv => ⟨?_, Events.fromBytes_bytes e hv⟩⟩
  · have h := PostEvent.fromBytes_bytes_append p hv []
    rwa [List.append_nil] at h
  · cases e with
    | post p =>
      simp only [Events.toBytes, PostEvent.toBytes_of_valid p hv]
      rfl
    | comment c => rfl
    | reaction r => rfl

theorem events_roundtrip_witness :
    PostEvent.fromBytes (PostEvent.bytes ⟨[104, 105], [[97], [98, 49]]⟩)
        = some (Except.ok ⟨[104, 105], [[97], [98, 49]]⟩)
    ∧ CommentEvent.fromBytes (CommentEvent.toBytes ⟨List.replicate 32 17, [111, 107]⟩)
        = Except.ok ⟨List.replicate 32 17, [111, 107]⟩
    ∧ ReactionEvent.fromBytes (ReactionEvent.toBytes ⟨List.replicate 32 0, .thumbUp⟩)
        = Except.ok ⟨List.replicate 32 0, .thumbUp⟩
    ∧ Events.fromBytes (Events.bytes (.post ⟨[104, 105], [[97], [98, 49]]⟩))
        = some (Except.ok (.post ⟨[104, 105], [[97], [98, 49]]⟩)) :=
  ⟨(events_roundtrip.1 _ (by decide)).2, events_roundtrip.2.1 _ (by decide),
    events_roundtrip.2.2.1 _ (by decide), (events_roundtrip.2.2.2 _ (by decide)).2⟩

/-- C3: the claim says every truncated buffer makes
`PostEvent::from_bytes` return `Err(SliceTooShort)`; the code instead
panics (models as `none`) on the boundary input whose length equals
`content_len + 2` (only `n < content_len + 2` is checked before
`event[content_len + 2]` is read) and on truncated tag data (the loop
has no bounds checks: `// TODO: more length checks`). -/
theorem post_fromBytes_panics :
    PostEvent.fromBytes [1, 0, 97] = none
    ∧ PostEvent.fromBytes [0, 0, 1] = none := by decide

/-- C4 counterexample: `PostEvent` keeps the default `size_hint`, which
is `None`, not the exact encoded length. -/
theorem post_size_hint_not_exact :
    ¬ PostEvent.sizeHint ⟨[], []⟩ = some (PostEvent.bytes ⟨[], []⟩).length := by
  decide

/-- C4 (amended): `size_hint` is exactly the encoded length for the
`CommentEvent` and `ReactionEvent` variants and the envelope adds
exactly 2 bytes for every variant, but `PostEvent` inherits the default
`size_hint`, which returns `None`. -/
theorem size_hints_amended :
    (∀ p : PostEvent, PostEvent.sizeHint p = none)
    ∧ (∀ c : CommentEvent, c.Valid →
        CommentEvent.sizeHint c = some c.toBytes.length)
    ∧ (∀ r : ReactionEvent, r.Valid →
        ReactionEvent.sizeHint r = some r.toBytes.length)
    ∧ (∀ p : PostEvent, (Events.bytes (.post p)).length = p.bytes.length + 2)
    ∧ (∀ c : CommentEvent, (Events.bytes (.comment c)).length = c.toBytes.length + 2)
    ∧ (∀ r : ReactionEvent, (Events.bytes (.reaction r)).length = r.toBytes.length + 2) := by
  refine ⟨fun _ => rfl, fun c hv => ?_, fun r hv => ?_, fun p => ?_, fun c => ?_, fun r => ?_⟩
  · simp only [CommentEvent.sizeHint, CommentEvent.toBytes, List.length_append, hv.1]
  · have h : r.refAddress.length = Hash.SIZE := hv
    simp only [ReactionEvent.sizeHint, ReactionEvent.toBytes, List.length_append, h]
  · simp only [Events.bytes, List.length_cons]
  · simp only [Events.bytes, List.length_cons]
  · simp only [Events.bytes, List.length_cons]

theorem size_hints_amended_witness :
    PostEvent.sizeHint ⟨[], []⟩ = none
    ∧ CommentEvent.sizeHint ⟨List.replicate 32 17, [111, 107]⟩
        = some (CommentEvent.toBytes ⟨List.replicate 32 17, [111, 107]⟩).length
    ∧ ReactionEvent.sizeHint ⟨List.replicate 32 0, .thumbUp⟩
        = some (ReactionEvent.toBytes ⟨List.replicate 32 0, .thumbUp⟩).length
    ∧ (Events.bytes (.post ⟨[], []⟩)).length = (PostEvent.bytes ⟨[], []⟩).length + 2 :=
  ⟨size_hints_amended.1 _, size_hints_amended.2.1 _ (by decide),
    size_hints_amended.2.2.1 _ (by decide), size_hints_amended.2.2.2.1 _⟩

/-- C9: the empty post encodes to exactly `[00 00 00]` and its envelope
encoding is exactly `00 00 00 00 00`. -/
theorem empty_post_encoding :
    PostEvent.bytes ⟨[], []⟩ = [0, 0, 0]
    ∧ PostEvent.toBytes ⟨[], []⟩ = some [0, 0, 0]
    ∧ Events.bytes (.post ⟨[], []⟩) = [0, 0, 0, 0, 0]
    ∧ Events.toBytes (.post ⟨[], []⟩) = some [0, 0, 0, 0, 0] := by decide

/-- C10: `PostEvent::from_bytes` stops after the last declared tag, so
decoding an encoding with arbitrary bytes appended still succeeds and
returns the original event. -/
theorem post_decode_ignores_trailing (p : PostEvent) (s : List Nat) (hv : p.Valid) :
    PostEvent.fromBytes (PostEvent.bytes p ++ s) = some (Except.ok p) :=
  PostEvent.fromBytes_bytes_append p hv s

theorem post_decode_ignores_trailing_witness :
    PostEvent.fromBytes (PostEvent.bytes ⟨[104, 105], [[97]]⟩ ++ [255, 7, 1])
      = some (Except.ok ⟨[104, 105], [[97]]⟩) :=
  post_decode_ignores_trailing _ [255, 7, 1] (by decide)

theorem processMessages_append (block : Block) :
    ∀ (msgs : List Message) (idx : Index) (out : Index × Option EventDecodeError),
      processMessages block msgs idx = some out →
      ∃ np nc, out.1.posts = idx.posts ++ np ∧ out.1.comments = idx.comments ++ nc := by
  intro msgs
  induction msgs with
  | nil =>
    intro idx out h
    rw [processMessages] at h
    injection h with h
    rw [← h]
    exact ⟨[], [], (List.append_nil _).symm, (List.append_nil _).symm⟩
  | cons m rest ih =>
    intro idx out h
    rw [processMessages] at h
    cases hfb : Events.fromBytes m.data with
    | none =>
      simp only [hfb] at h
      exact Option.noConfusion h
    | some r =>
      simp only [hfb] at h
      match r with
      | Except.error e =>
        injection h with h
        rw [← h]
        exact ⟨[], [], (List.append_nil _).symm, (List.append_nil _).symm⟩
      | Except.ok (Events.post p) =>
        obtain ⟨np, nc, h1, h2⟩ := ih _ out h
        exact ⟨⟨block.hash, m.hash⟩ :: np, nc,
          by rw [h1]; simp, by rw [h2]⟩
      | Except.ok (Events.comment c) =>
        obtain ⟨np, nc, h1, h2⟩ := ih _ out h
        exact ⟨np, ⟨block.hash, m.hash, c.refMessageHash⟩ :: nc,
          by rw [h1], by rw [h2]; simp⟩
      | Except.ok (Events.reaction r) =>
        exact ih _ out h

theorem updateLoop_append (s : Storage) :
    ∀ (fuel : Nat) (idx : Index) (out : Index × Except EventDecodeError Unit),
      Index.updateLoop s fuel idx = some out →
      ∃ np nc, out.1.posts = idx.posts ++ np ∧ out.1.comments = idx.comments ++ nc := by
  intro fuel
  induction fuel with
  | zero =>
    intro idx out h
    rw [Index.updateLoop] at h
    injection h with h
    rw [← h]
    exact ⟨[], [], (List.append_nil _).symm, (List.append_nil _).symm⟩
  | succ fuel ih =>
    intro idx out h
    rw [Index.updateLoop] at h
    cases hnb : s.nextBlock idx.lastBlock with
    | none =>
      simp only [hnb] at h
      injection h with h
      rw [← h]
      exact ⟨[], [], (List.append_nil _).symm, (List.append_nil _).symm⟩
    | some hsh =>
      simp only [hnb] at h
      cases hrb : s.readBlock hsh with
      | none =>
        simp only [hrb] at h
        injection h with h
        rw [← h]
        exact ⟨[], [], (List.append_nil _).symm, (List.append_nil _).symm⟩
      | some block =>
        simp only [hrb] at h
        cases hpm : processMessages block block.inlineMessages idx with
        | none =>
          simp only [hpm] at h
          exact Option.noConfusion h
        | some pr =>
          simp only [hpm] at h
          obtain ⟨np1, nc1, hp1, hc1⟩ := processMessages_append block _ idx pr hpm
          match pr, hp1, hc1 with
          | (idx', some e), hp1, hc1 =>
            injection h with h
            rw [← h]
            exact ⟨np1, nc1, hp1, hc1⟩
          | (idx', none), hp1, hc1 =>
            obtain ⟨np2, nc2, hp2, hc2⟩ := ih _ out h
            exact ⟨np1 ++ np2, nc1 ++ nc2,
              by rw [hp2]; show idx'.posts ++ np2 = _; rw [hp1, List.append_assoc],
              by rw [hc2]; show idx'.comments ++ nc2 = _; rw [hc1, List.append_assoc]⟩

/-- C6: when the storage root block differs from the recorded one or
the checkpointed `last_block` is gone, `Index::update` clears both
lists and resets `last_block` to `Hash::ZERO` and `root_block` to the
new root before projecting anything (it then equals the plain
projection loop started from the freshly reset index); otherwise the
existing posts and comments are retained and only appended to. -/
theorem index_update_reorg (s : Storage) (fuel : Nat) (idx : Index) (r : Hash)
    (hroot : s.rootBlock = some r) :
    (idx.rootBlock ≠ r ∨ s.hasBlock idx.lastBlock = false →
      Index.update s fuel idx = Index.updateLoop s fuel ⟨r, Hash.zero, [], []⟩)
    ∧ (idx.rootBlock = r → s.hasBlock idx.lastBlock = true →
      ∀ out, Index.update s fuel idx = some out →
        ∃ np nc, out.1.posts = idx.posts ++ np ∧ out.1.comments = idx.comments ++ nc) := by
  constructor
  · intro hcond
    unfold Index.update
    simp only [hroot]
    rw [if_pos hcond]
  · intro h1 h2 out hupd
    unfold Index.update at hupd
    simp only [hroot] at hupd
    rw [if_neg (by push_neg; exact ⟨h1, by rw [h2]; simp⟩)] at hupd
    obtain ⟨np, nc, hp, hc⟩ := updateLoop_append s fuel
      ⟨r, idx.lastBlock, idx.posts, idx.comments⟩ out hupd
    exact ⟨np, nc, hp, hc⟩

theorem index_update_reorg_witness :
    (Index.update rwStorage 1 rwIndex = Index.updateLoop rwStorage 1 ⟨[1], Hash.zero, [], []⟩)
    ∧ ∃ np nc,
        (rwIndex2, (Except.ok () : Except EventDecodeError Unit)).1.posts
            = rwIndex2.posts ++ np
          ∧ (rwIndex2, (Except.ok () : Except EventDecodeError Unit)).1.comments
            = rwIndex2.comments ++ nc := by
  constructor
  · exact (index_update_reorg rwStorage 1 rwIndex [1] rfl).1 (Or.inl (by decide))
  · exact (index_update_reorg rwStorage 1 rwIndex2 [1] rfl).2 rfl rfl
      (rwIndex2, Except.ok ()) (by decide)

/-- C2 counterexample: a block message whose bytes fail to decode makes
`Index::update` return an error (`?` on `Events::from_bytes`), instead
of being skipped as the claim states. -/
theorem index_update_decode_error_not_skipped :
    Index.update cxStorage 2 cxIndex
      = some (cxIndex, Except.error EventDecodeError.sliceTooShort) := by decide

/-- C2 (amended): a message whose bytes fail to decode as an `Events`
value (`SliceTooShort`, an unknown envelope tag, or any variant decode
error) makes `Index::update` return `Err(IndexUpdateError::Event(..))`:
projection of the remaining messages and blocks stops there, entries
appended before the failure are kept, and the failing block is not
checkpointed.  Only messages that decode to a non-`Post`/`Comment`
variant are skipped with projection continuing. -/
theorem index_update_decode_error_aborts
    (s : Storage) (idx : Index) (fuel : Nat) (h : Hash) (block : Block)
    (idx' : Index) (e : EventDecodeError)
    (hroot : s.rootBlock = some idx.rootBlock)
    (hhas : s.hasBlock idx.lastBlock = true)
    (hnext : s.nextBlock idx.lastBlock = some h)
    (hread : s.readBlock h = some block)
    (hproc : processMessages block block.inlineMessages idx = some (idx', some e)) :
    Index.update s (fuel + 1) idx = some (idx', Except.error e) := by
  unfold Index.update
  simp only [hroot]
  rw [if_neg (by push_neg; exact ⟨rfl, by rw [hhas]; simp⟩)]
  simp only [Index.updateLoop, hnext, hread, hproc]

theorem index_update_decode_error_aborts_witness :
    Index.update cxStorage 1 cxIndex
      = some (cxIndex, Except.error EventDecodeError.sliceTooShort) :=
  index_update_decode_error_aborts cxStorage cxIndex 0 [5] cxBlock cxIndex
    EventDecodeError.sliceTooShort rfl rfl (by decide) (by decide) (by decide)

theorem insertHandled_ok {db db' : Db} {h : Hash}
    (he : db.insertHandled h = Except.ok db') :
    h ∉ db.handledBlocks ∧ db' = { db with handledBlocks := db.handledBlocks ++ [h] } := by
  unfold Db.insertHandled at he
  by_cases hc : h ∈ db.handledBlocks
  · rw [if_pos hc] at he
    exact Except.noConfusion he
  · rw [if_neg hc] at he
    injection he with he
    exact ⟨hc, he.symm⟩

theorem insertPost_ok {db db' : Db} {r : PostRow}
    (he : db.insertPost r = Except.ok db') :
    (¬ ∃ q ∈ db.posts, q.transaction = r.transaction)
      ∧ db' = { db with posts := db.posts ++ [r] } := by
  unfold Db.insertPost at he
  by_cases hc : ∃ q ∈ db.posts, q.transaction = r.transaction
  · rw [if_pos hc] at he
    exact Except.noConfusion he
  · rw [if_neg hc] at he
    injection he with he
    exact ⟨hc, he.symm⟩

theorem insertPostTag_ok {db db' : Db} {p : Hash × List Nat}
    (he : db.insertPostTag p = Except.ok db') :
    p ∉ db.postTags ∧ db' = { db with postTags := db.postTags ++ [p] } := by
  unfold Db.insertPostTag at he
  by_cases hc : p ∈ db.postTags
  · rw [if_pos hc] at he
    exact Except.noConfusion he
  · rw [if_neg hc] at he
    injection he with he
    exact ⟨hc, he.symm⟩

theorem insertComment_ok {db db' : Db} {r : CommentRow}
    (he : db.insertComment r = Except.ok db') :
    db' = { db with comments := db.comments ++ [r] } := by
  unfold Db.insertComment at he
  by_cases hc : ∃ q ∈ db.comments, q.transaction = r.transaction
  · rw [if_pos hc] at he
    exact Except.noConfusion he
  · rw [if_neg hc] at he
    injection he with he
    exact he.symm

theorem insertReaction_ok {db db' : Db} {r : ReactionRow}
    (he : db.insertReaction r = Except.ok db') :
    db' = { db with reactions := db.reactions ++ [r] } := by
  unfold Db.insertReaction at he
  by_cases hc : ∃ q ∈ db.reactions, q.transaction = r.transaction
  · rw [if_pos hc] at he
    exact Except.noConfusion he
  · rw [if_neg hc] at he
    injection he with he
    exact he.symm

theorem postsKeyed_append {db : Db} {r : PostRow}
    (hk : ¬ ∃ q ∈ db.posts, q.transaction = r.transaction)
    (hnd : PostsKeyed db) : PostsKeyed { db with posts := db.posts ++ [r] } := by
  unfold PostsKeyed at hnd ⊢
  rw [List.map_append, List.nodup_append]
  refine ⟨hnd, List.nodup_singleton _, ?_⟩
  intro x hx hx1
  rw [List.mem_singleton.mp hx1] at hx
  obtain ⟨q, hq, hq2⟩ := List.mem_map.mp hx
  exact hk ⟨q, hq, hq2⟩

theorem insertTags_ok (k : Hash) :
    ∀ (ts : List (List Nat)) (db db' : Db),
      Db.insertTags db k ts = Except.ok db' →
      db'.handledBlocks = db.handledBlocks ∧ db'.posts = db.posts
        ∧ (∀ x ∈ db.postTags, x ∈ db'.postTags)
        ∧ (∀ t ∈ ts, (k, t) ∈ db'.postTags)
        ∧ (db.postTags.Nodup → db'.postTags.Nodup) := by
  intro ts
  induction ts with
  | nil =>
    intro db db' h
    rw [Db.insertTags] at h
    injection h with h
    subst h
    exact ⟨rfl, rfl, fun x hx => hx, by simp, id⟩
  | cons t ts ih =>
    intro db db' h
    rw [Db.insertTags] at h
    cases hins : db.insertPostTag (k, t) with
    | error e =>
      rw [hins] at h
      exact Except.noConfusion h
    | ok db1 =>
      rw [hins] at h
      obtain ⟨hnp, hd1⟩ := insertPostTag_ok hins
      subst hd1
      obtain ⟨h1, h2, h3, h4, h5⟩ := ih _ db' h
      refine ⟨h1, h2, fun x hx => h3 x (List.mem_append_left _ hx), ?_, ?_⟩
      · intro t' ht'
        rcases List.mem_cons.mp ht' with rfl | ht''
        · exact h3 _ (List.mem_append_right _ (List.mem_singleton_self _))
        · exact h4 t' ht''
      · intro hnd
        refine h5 ?_
        rw [List.nodup_append]
        refine ⟨hnd, List.nodup_singleton _, ?_⟩
        intro x hx hx1
        rw [List.mem_singleton.mp hx1] at hx
        exact hnp hx

theorem applyEvent_post_ok {db db' : Db} {k : Hash} {a ts : Nat} {p : PostEvent}
    (h : db.applyEvent k a ts (.post p) = Except.ok db') :
    db'.handledBlocks = db.handledBlocks
      ∧ PostRow.mk k p.content ts a ∈ db'.posts
      ∧ (∀ x ∈ db.posts, x ∈ db'.posts)
      ∧ (∀ t ∈ p.tags, (k, t) ∈ db'.postTags)
      ∧ (∀ x ∈ db.postTags, x ∈ db'.postTags)
      ∧ (PostsKeyed db → PostsKeyed db')
      ∧ (db.postTags.Nodup → db'.postTags.Nodup) := by
  rw [Db.applyEvent] at h
  cases hins : db.insertPost ⟨k, p.content, ts, a⟩ with
  | error e =>
    rw [hins] at h
    exact Except.noConfusion h
  | ok db1 =>
    rw [hins] at h
    obtain ⟨hk, hd1⟩ := insertPost_ok hins
    obtain ⟨h1, h2, h3, h4, h5⟩ := insertTags_ok k p.tags db1 db' h
    subst hd1
    refine ⟨h1, ?_, ?_, h4, h3, ?_, h5⟩
    · rw [h2]
      exact List.mem_append_right _ (List.mem_singleton_self _)
    · intro x hx
      rw [h2]
      exact List.mem_append_left _ hx
    · intro hnd
      have := postsKeyed_append hk hnd
      unfold PostsKeyed at this ⊢
      rw [h2]
      exact this

theorem applyEvent_mono {db db' : Db} {k : Hash} {a ts : Nat} {ev : Events}
    (h : db.applyEvent k a ts ev = Except.ok db') :
    db'.handledBlocks = db.handledBlocks
      ∧ (∀ x ∈ db.posts, x ∈ db'.posts)
      ∧ (∀ x ∈ db.postTags, x ∈ db'.postTags)
      ∧ (PostsKeyed db → PostsKeyed db')
      ∧ (db.postTags.Nodup → db'.postTags.Nodup) := by
  cases ev with
  | post p =>
    obtain ⟨h1, _, h3, _, h5, h6, h7⟩ := applyEvent_post_ok h
    exact ⟨h1, h3, h5, h6, h7⟩
  | comment c =>
    rw [Db.applyEvent] at h
    have hd := insertComment_ok h
    subst hd
    exact ⟨rfl, fun x hx => hx, fun x hx => hx, id, id⟩
  | reaction r =>
    rw [Db.applyEvent] at h
    have hd := insertReaction_ok h
    subst hd
    exact ⟨rfl, fun x hx => hx, fun x hx => hx, id, id⟩

theorem processTxs_mono (ts : Nat) :
    ∀ (txs : List Transaction) (db df : Db),
      Db.processTxs db ts txs = some (Except.ok df) →
      df.handledBlocks = db.handledBlocks
        ∧ (∀ x ∈ db.posts, x ∈ df.posts)
        ∧ (∀ x ∈ db.postTags, x ∈ df.postTags)
        ∧ (PostsKeyed db → PostsKeyed df)
        ∧ (db.postTags.Nodup → df.postTags.Nodup) := by
  intro txs
  induction txs with
  | nil =>
    intro db df h
    rw [Db.processTxs] at h
    injection h with h
    injection h with h
    subst h
    exact ⟨rfl, fun x hx => hx, fun x hx => hx, id, id⟩
  | cons tx rest ih =>
    intro db df h
    rw [Db.processTxs] at h
    by_cases hs : tx.sigOk = false
    · rw [if_pos hs] at h
      injection h with h
      exact Except.noConfusion h
    · rw [if_neg hs] at h
      cases hfb : Events.fromBytes tx.data with
      | none =>
        simp only [hfb] at h
        exact Option.noConfusion h
      | some r =>
        simp only [hfb] at h
        cases r with
        | error e =>
          injection h with h
          exact Except.noConfusion h
        | ok ev =>
          cases hap : db.applyEvent tx.hash tx.author ts ev with
          | error e =>
            simp only [hap] at h
            injection h with h
            exact Except.noConfusion h
          | ok db1 =>
            simp only [hap] at h
            obtain ⟨m1, m2, m3, m4, m5⟩ := applyEvent_mono hap
            obtain ⟨n1, n2, n3, n4, n5⟩ := ih db1 df h
            exact ⟨by rw [n1, m1], fun x hx => n2 x (m2 x hx),
              fun x hx => n3 x (m3 x hx), fun hk => n4 (m4 hk), fun hk => n5 (m5 hk)⟩

theorem processTxs_post_mem (ts : Nat) :
    ∀ (txs : List Transaction) (db df : Db) (tx : Transaction) (p : PostEvent),
      Db.processTxs db ts txs = some (Except.ok df) →
      tx ∈ txs → Events.fromBytes tx.data = some (Except.ok (.post p)) →
      PostRow.mk tx.hash p.content ts tx.author ∈ df.posts
        ∧ ∀ t ∈ p.tags, (tx.hash, t) ∈ df.postTags := by
  intro txs
  induction txs with
  | nil =>
    intro db df tx p _ hmem _
    exact absurd hmem (List.not_mem_nil tx)
  | cons tx' rest ih =>
    intro db df tx p h hmem hdec
    rw [Db.processTxs] at h
    by_cases hs : tx'.sigOk = false
    · rw [if_pos hs] at h
      injection h with h
      exact Except.noConfusion h
    · rw [if_neg hs] at h
      rcases List.mem_cons.mp hmem with rfl | hmem'
      · simp only [hdec] at h
        cases hap : db.applyEvent tx.hash tx.author ts (.post p) with
        | error e =>
          simp only [hap] at h
          injection h with h
          exact Except.noConfusion h
        | ok db1 =>
          simp only [hap] at h
          obtain ⟨_, hrow, _, htags, _, _, _⟩ := applyEvent_post_ok hap
          obtain ⟨_, n2, n3, _, _⟩ := processTxs_mono ts rest db1 df h
          exact ⟨n2 _ hrow, fun t ht => n3 _ (htags t ht)⟩
      · cases hfb : Events.fromBytes tx'.data with
        | none =>
          simp only [hfb] at h
          exact Option.noConfusion h
        | some r =>
          simp only [hfb] at h
          cases r with
          | error e =>
            injection h with h
            exact Except.noConfusion h
          | ok ev =>
            cases hap : db.applyEvent tx'.hash tx'.author ts ev with
            | error e =>
              simp only [hap] at h
              injection h with h
              exact Except.noConfusion h
            | ok db1 =>
              simp only [hap] at h
              exact ih db1 df tx p h hmem' hdec

theorem processBlock_ok {db df : Db} {bh : Hash} {b : SBlock}
    (h : Db.processBlock db bh b = some (Except.ok df)) :
    df.handledBlocks = db.handledBlocks ++ [bh]
      ∧ (∀ x ∈ db.posts, x ∈ df.posts)
      ∧ (∀ x ∈ db.postTags, x ∈ df.postTags)
      ∧ (PostsKeyed db → PostsKeyed df)
      ∧ (db.postTags.Nodup → df.postTags.Nodup) := by
  unfold Db.processBlock at h
  cases hih : db.insertHandled bh with
  | error e =>
    rw [hih] at h
    injection h with h
    exact Except.noConfusion h
  | ok db1 =>
    rw [hih] at h
    obtain ⟨_, hd1⟩ := insertHandled_ok hih
    subst hd1
    cases hc : b.content with
    | other =>
      rw [hc] at h
      injection h with h
      injection h with h
      subst h
      exact ⟨rfl, fun x hx => hx, fun x hx => hx, id, id⟩
    | transactions txs =>
      rw [hc] at h
      exact processTxs_mono b.timestamp txs _ df h

theorem processBlock_post_mem {db df : Db} {bh : Hash} {b : SBlock}
    {txs : List Transaction} {tx : Transaction} {p : PostEvent}
    (h : Db.processBlock db bh b = some (Except.ok df))
    (hc : b.content = .transactions txs) (htx : tx ∈ txs)
    (hdec : Events.fromBytes tx.data = some (Except.ok (.post p))) :
    PostRow.mk tx.hash p.content b.timestamp tx.author ∈ df.posts
      ∧ ∀ t ∈ p.tags, (tx.hash, t) ∈ df.postTags := by
  unfold Db.processBlock at h
  cases hih : db.insertHandled bh with
  | error e =>
    rw [hih] at h
    injection h with h
    exact Except.noConfusion h
  | ok db1 =>
    rw [hih] at h
    rw [hc] at h
    exact processTxs_post_mem b.timestamp txs db1 df tx p h htx hdec

theorem sync_mono (st : ServerStorage) :
    ∀ (hist : List Hash) (db df : Db),
      Db.sync st db hist = some (Except.ok df) →
      (∀ x ∈ db.posts, x ∈ df.posts)
        ∧ (∀ x ∈ db.postTags, x ∈ df.postTags)
        ∧ (PostsKeyed db → PostsKeyed df)
        ∧ (db.postTags.Nodup → df.postTags.Nodup) := by
  intro hist
  induction hist with
  | nil =>
    intro db df h
    rw [Db.sync] at h
    injection h with h
    injection h with h
    subst h
    exact ⟨fun x hx => hx, fun x hx => hx, id, id⟩
  | cons bh rest ih =>
    intro db df h
    rw [Db.sync] at h
    by_cases hcont : bh ∈ db.handledBlocks
    · rw [if_pos hcont] at h
      exact ih db df h
    · rw [if_neg hcont] at h
      cases hrb : st.readBlock bh with
      | none =>
        simp only [hrb] at h
        exact ih db df h
      | some b =>
        simp only [hrb] at h
        cases hpb : db.processBlock bh b with
        | none =>
          simp only [hpb] at h
          exact Option.noConfusion h
        | some res =>
          simp only [hpb] at h
          cases res with
          | error e =>
            injection h with h
            exact Except.noConfusion h
          | ok db1 =>
            obtain ⟨_, m2, m3, m4, m5⟩ := processBlock_ok hpb
            obtain ⟨n2, n3, n4, n5⟩ := ih db1 df h
            exact ⟨fun x hx => n2 x (m2 x hx), fun x hx => n3 x (m3 x hx),
              fun hk => n4 (m4 hk), fun hk => n5 (m5 hk)⟩

theorem sync_post_mem (st : ServerStorage) :
    ∀ (hist : List Hash) (db df : Db) (bh : Hash) (b : SBlock)
      (txs : List Transaction) (tx : Transaction) (p : PostEvent),
      Db.sync st db hist = some (Except.ok df) →
      bh ∈ hist → bh ∉ db.handledBlocks →
      st.readBlock bh = some b → b.content = .transactions txs → tx ∈ txs →
      Events.fromBytes tx.data = some (Except.ok (.post p)) →
      PostRow.mk tx.hash p.content b.timestamp tx.author ∈ df.posts
        ∧ ∀ t ∈ p.tags, (tx.hash, t) ∈ df.postTags := by
  intro hist
  induction hist with
  | nil =>
    intro db df bh b txs tx p _ hmem _ _ _ _ _
    exact absurd hmem (List.not_mem_nil bh)
  | cons bh' rest ih =>
    intro db df bh b txs tx p h hmem hnew hread hc htx hdec
    rw [Db.sync] at h
    by_cases hcont : bh' ∈ db.handledBlocks
    · rw [if_pos hcont] at h
      have hne : bh ≠ bh' := fun he => hnew (he ▸ hcont)
      rcases List.mem_cons.mp hmem with rfl | hmem'
      · exact absurd rfl hne
      · exact ih db df bh b txs tx p h hmem' hnew hread hc htx hdec
    · rw [if_neg hcont] at h
      cases hrb : st.readBlock bh' with
      | none =>
        simp only [hrb] at h
        rcases List.mem_cons.mp hmem with rfl | hmem'
        · rw [hread] at hrb
          exact Option.noConfusion hrb
        · exact ih db df bh b txs tx p h hmem' hnew hread hc htx hdec
      | some b' =>
        simp only [hrb] at h
        cases hpb : db.processBlock bh' b' with
        | none =>
          simp only [hpb] at h
          exact Option.noConfusion h
        | some res =>
          simp only [hpb] at h
          cases res with
          | error e =>
            injection h with h
            exact Except.noConfusion h
          | ok db1 =>
            by_cases hbh : bh = bh'
            · subst hbh
              rw [hread] at hrb
              injection hrb with hrb
              subst hrb
              obtain ⟨hrow, htags⟩ := processBlock_post_mem hpb hc htx hdec
              obtain ⟨n2, n3, _, _⟩ := sync_mono st rest db1 df h
              exact ⟨n2 _ hrow, fun t ht => n3 _ (htags t ht)⟩
            · rcases List.mem_cons.mp hmem with rfl | hmem'
              · exact absurd rfl hbh
              · obtain ⟨hhb, _, _, _, _⟩ := processBlock_ok hpb
                have hnew1 : bh ∉ db1.handledBlocks := by
                  rw [hhb]
                  intro hin
                  rcases List.mem_append.mp hin with hin' | hin'
                  · exact hnew hin'
                  · exact hbh (List.mem_singleton.mp hin')
                exact ih db1 df bh b txs tx p h hmem' hnew1 hread hc htx hdec

/-- C5: for every block in the storage history that is not yet
handled, each of its transactions whose bytes decode to a `Post` event
puts the row `(transaction, content, timestamp, author)` into
`v1_posts` and one row per tag into `v1_post_tags` (the primary-key /
UNIQUE constraints keep those rows unique), so the SQL index stores the
post payload itself. -/
theorem database_sync_post_payload (st : ServerStorage) (db0 df : Db) (bh : Hash)
    (b : SBlock) (txs : List Transaction) (tx : Transaction) (p : PostEvent)
    (hsync : Db.sync st db0 st.history = some (Except.ok df))
    (hmem : bh ∈ st.history) (hnew : bh ∉ db0.handledBlocks)
    (hread : st.readBlock bh = some b) (hcontent : b.content = .transactions txs)
    (htx : tx ∈ txs)
    (hdec : Events.fromBytes tx.data = some (Except.ok (.post p))) :
    (PostRow.mk tx.hash p.content b.timestamp tx.author ∈ df.posts
      ∧ ∀ t ∈ p.tags, (tx.hash, t) ∈ df.postTags)
    ∧ (PostsKeyed db0 → PostsKeyed df)
    ∧ (db0.postTags.Nodup → df.postTags.Nodup) :=
  ⟨sync_post_mem st st.history db0 df bh b txs tx p hsync hmem hnew hread hcontent htx hdec,
    (sync_mono st st.history db0 df hsync).2.2.1,
    (sync_mono st st.history db0 df hsync).2.2.2⟩

theorem database_sync_post_payload_witness :
    (PostRow.mk [8] [104, 105] 100 5
        ∈ (Db.mk [[2]] [⟨[8], [104, 105], 100, 5⟩] [([8], [97])] [] []).posts
      ∧ ∀ t ∈ [[97]], (([8] : Hash), t)
        ∈ (Db.mk [[2]] [⟨[8], [104, 105], 100, 5⟩] [([8], [97])] [] []).postTags)
    ∧ (PostsKeyed emptyDb
        → PostsKeyed (Db.mk [[2]] [⟨[8], [104, 105], 100, 5⟩] [([8], [97])] [] []))
    ∧ (emptyDb.postTags.Nodup
        → (Db.mk [[2]] [⟨[8], [104, 105], 100, 5⟩] [([8], [97])] [] []).postTags.Nodup) :=
  database_sync_post_payload wServerStorage emptyDb
    (Db.mk [[2]] [⟨[8], [104, 105], 100, 5⟩] [([8], [97])] [] [])
    [2] wBlock [wTx] wTx ⟨[104, 105], [[97]]⟩
    (by decide) (by decide) (by decide) (by decide) (by decide) (by decide) (by decide)

theorem deriveKey_length (pwd : List Nat) : (deriveKey pwd).length = 32 := by
  simp [deriveKey]

theorem aead_roundtrip (key nonce plain : List Nat) :
    aeadDecrypt key nonce (aeadEncrypt key nonce plain) = some plain := by
  have h1 : (plain ++ key ++ nonce).length
      = plain.length + (key.length + nonce.length) := by
    simp only [List.length_append]
    omega
  have h2 : (plain ++ key ++ nonce).length - (key.length + nonce.length)
      = plain.length := by
    omega
  have h3 : (plain ++ key ++ nonce).drop plain.length = key ++ nonce := by
    rw [List.append_assoc]
    exact List.drop_left ..
  have h4 : (plain ++ key ++ nonce).take plain.length = plain := by
    rw [List.append_assoc]
    exact List.take_left ..
  simp only [aeadEncrypt, aeadDecrypt]
  rw [if_neg (by omega), h2, h3, if_pos rfl, h4]

theorem aead_wrong_key (key key' nonce plain : List Nat)
    (hlen : key'.length = key.length) (hne : key' ≠ key) :
    aeadDecrypt key' nonce (aeadEncrypt key nonce plain) = none := by
  have h1 : (plain ++ key ++ nonce).length
      = plain.length + (key.length + nonce.length) := by
    simp only [List.length_append]
    omega
  have h2 : (plain ++ key ++ nonce).length - (key'.length + nonce.length)
      = plain.length := by
    omega
  have h3 : (plain ++ key ++ nonce).drop plain.length = key ++ nonce := by
    rw [List.append_assoc]
    exact List.drop_left ..
  simp only [aeadEncrypt, aeadDecrypt]
  rw [if_neg (by omega), h2, h3, if_neg]
  intro hc
  exact hne (List.append_inj_left hc (by omega)).symm

/-- C8: decrypting an account with the password used at creation
returns the original signing key, and decrypting with any password
whose derived key differs fails. -/
theorem account_vault_roundtrip (name sk pwd : List Nat) (now : Nat)
    (hsk : sk.length = SigningKey.SIZE) :
    (Account.new name sk pwd now).decryptSigningKey pwd = Except.ok sk
    ∧ ∀ pwd', deriveKey pwd' ≠ deriveKey pwd →
        (Account.new name sk pwd now).decryptSigningKey pwd'
          = Except.error "failed to decrypt account signing key" := by
  constructor
  · unfold Account.decryptSigningKey Account.new
    simp only [aead_roundtrip]
    rw [if_neg (by simp [hsk])]
  · intro pwd' hne
    unfold Account.decryptSigningKey Account.new
    rw [aead_wrong_key (deriveKey pwd) (deriveKey pwd') Account.NONCE sk
      (by rw [deriveKey_length, deriveKey_length]) hne]

theorem account_vault_roundtrip_witness :
    (Account.new [110] (List.replicate 32 1) [7] 0).decryptSigningKey [7]
        = Except.ok (List.replicate 32 1)
    ∧ (Account.new [110] (List.replicate 32 1) [7] 0).decryptSigningKey [8]
        = Except.error "failed to decrypt account signing key" := by
  have h := account_vault_roundtrip [110] (List.replicate 32 1) [7] 0 (by decide)
  exact ⟨h.1, h.2 [8] (by decide)⟩
